import Mathlib

/-
Shallow embedding of rangetar (src/main.rs, src/int.rs).

Modelling conventions:
* Bytes are `Nat` (a concrete byte is < 256 but nothing here depends on that),
  buffers and file contents are `List Nat`.
* Machine integers (`u64`, `usize`) are `Nat`.  `usize::try_from : u64 -> usize`
  fails exactly when the value exceeds `USIZE_MAX` (64-bit platform); no claim
  depends on `u64` wraparound, so additions are plain `Nat` additions.
  Saturating subtraction (`u64::saturating_sub`) is exactly `Nat` subtraction.
* The backing file of a `Segment.file` is its *current* byte list, which may be
  shorter or longer than the recorded `size` captured at index-build time.
* `File::seek(SeekFrom::Start(o))` always succeeds (seeking past EOF is legal);
  `File::read` is modelled deterministically as returning
  `min (space left in the buffer) (bytes left in the file)` bytes - the maximal
  read the OS may perform.  `ErrorKind::Interrupted` retries and genuine I/O
  errors are not modelled, so the `io::Error` side of `Result` never occurs;
  a Rust panic is modelled as `Option.none` / `ReadResult.panicked`.
-/

/-- `usize::MAX` on the 64-bit platform the program targets. -/
def USIZE_MAX : Nat := 2 ^ 64 - 1

/-- Embeds `int::converting_min` (src/int.rs): `min` of a `u64` and a `usize`,
returning `b` when the `u64` does not fit in `usize`. -/
def converting_min (a : Nat) (b : Nat) : Nat :=
  if a ≤ USIZE_MAX then min a b else b

/-- Embeds `TAR_BLOCK_SIZE` (src/main.rs). -/
def TAR_BLOCK_SIZE : Nat := 512

/-- Embeds `enum Segment` (src/main.rs).  `file contents size` carries the
current bytes of the backing file together with the recorded size; the
`RefCell<File>` handle is represented by those bytes. -/
inductive Segment where
  | static (bytes : List Nat)
  | file (contents : List Nat) (size : Nat)
  | zeroes (size : Nat)
deriving DecidableEq

/-- Embeds `Segment::byte_size`. -/
def Segment.byte_size : Segment → Nat
  | .static bytes => bytes.length
  | .file _ size => size
  | .zeroes size => size

/-- Embeds `fill_slice(&mut buf[start..stop], v)` (src/main.rs): overwrite the
index range `[start, stop)` of `buf` with `v`.  Faithful for
`start ≤ stop ≤ buf.length`, which holds at every call site. -/
def fillRange (buf : List Nat) (start stop : Nat) (v : Nat) : List Nat :=
  buf.take start ++ ((buf.take stop).drop start).map (fun _ => v) ++ buf.drop stop

/-- Embeds `buf[start..start + data.len()].copy_from_slice(data)`.  Faithful
for `start + data.length ≤ buf.length`, which holds at every call site. -/
def writeRange (buf : List Nat) (start : Nat) (data : List Nat) : List Nat :=
  buf.take start ++ data ++ buf.drop (start + data.length)

/-- Embeds the `while nbytes < buf.len()` loop of `Segment::read` in the
`Segment::File` arm (src/main.rs lines 130-166).  `m` is `buf.len()` (constant
through the loop).  The loop provably terminates because every iteration that
recurses has read `n ≥ 1` fresh bytes; `gas` (initially `m`, an upper bound on
`m - nbytes`) makes the recursion structural, and the `gas = 0` branch returns
exactly what the `nbytes ≥ m` exit returns, so it is never a semantic escape
hatch. -/
def fileReadLoop (contents : List Nat) (size offset m : Nat) :
    Nat → Nat → List Nat → Nat × List Nat
  | 0, nbytes, buf => (nbytes, buf)
  | gas + 1, nbytes, buf =>
    if nbytes < m then
      -- file.read(&mut buf[nbytes..]) at file position offset + nbytes
      let n := min (m - nbytes) (contents.length - (offset + nbytes))
      if n = 0 then
        -- Ok(0): reached EOF
        if offset + nbytes < size then
          -- EOF earlier than expected - zero rest of bytes (but `nbytes` is
          -- returned unchanged, exactly as in the source)
          (nbytes, fillRange buf nbytes (converting_min (size - offset) m) 0)
        else
          (nbytes, buf)
      else
        -- Ok(n)
        let nbytes2 := nbytes + n
        let buf2 := writeRange buf nbytes ((contents.drop (offset + nbytes)).take n)
        if size < offset + nbytes2 then
          -- EOF later than expected - break and adjust nbytes
          (converting_min (size - offset) m, buf2)
        else
          fileReadLoop contents size offset m gas nbytes2 buf2
    else
      (nbytes, buf)

/-- Embeds `Segment::read` (src/main.rs lines 108-178).  `none` models the Rust
panic in the `Static` arm: when `offset > bytes.len()` the slice
`&bytes[offset..offset + nbytes]` has an out-of-range start index.  The other
arms never panic and (in this error-free file model) never return `Err`. -/
def Segment.read : Segment → Nat → List Nat → Option (Nat × List Nat)
  | .static bytes, offset, buf =>
    if bytes.length < offset then
      none
    else
      let nbytes := min (bytes.length - offset) buf.length
      some (nbytes, writeRange buf 0 ((bytes.drop offset).take nbytes))
  | .file contents size, offset, buf =>
    some (fileReadLoop contents size offset buf.length buf.length 0 buf)
  | .zeroes size, offset, buf =>
    let nbytes := converting_min (size - offset) buf.length
    some (nbytes, fillRange buf 0 nbytes 0)

/-- Embeds `IndexEntry` at the point where `Index::scan` consumes it:
`header_bytes` is `entry.header.as_bytes().to_vec()`, `entry_size` is the
(successfully parsed) `entry.header.entry_size()`, and `open_result` is the
outcome of `File::open(&entry.disk_path)` - `none` when the open failed,
`some contents` with the file's bytes otherwise. -/
structure IndexEntry where
  header_bytes : List Nat
  entry_size : Nat
  open_result : Option (List Nat)
deriving DecidableEq

/-- Embeds `struct Index` (src/main.rs). -/
structure Index where
  root : String
  segments : List Segment
deriving DecidableEq

/-- One iteration of the `for entry in write_index.entries` loop of
`Index::scan` (src/main.rs lines 203-231). -/
def scanStep (segments : List Segment) (entry : IndexEntry) : List Segment :=
  match entry.open_result with
  | none => segments  -- skipping unopenable file
  | some contents =>
    let segments := segments ++ [Segment.static entry.header_bytes]
    let segments := segments ++ [Segment.file contents entry.entry_size]
    let size_modulo_block := entry.entry_size % TAR_BLOCK_SIZE
    if 0 < size_modulo_block then
      segments ++ [Segment.zeroes (TAR_BLOCK_SIZE - size_modulo_block)]
    else
      segments

/-- Embeds the segment-building part of `Index::scan` (src/main.rs lines
200-239).  The filesystem traversal feeding `write_index.entries` is out of
scope; scanning starts from the already-collected entry list. -/
def Index.scan (root : String) (entries : List IndexEntry) : Index :=
  { root := root
    segments := entries.foldl scanStep [] ++ [Segment.zeroes (TAR_BLOCK_SIZE * 2)] }

/-- Embeds the `while let Some(segment) = iter.peek()` loop of `Index::seek`
(src/main.rs lines 247-256), returning the final `skipped` and the remaining
segment iterator. -/
def seekLoop (skipped offset : Nat) : List Segment → Nat × List Segment
  | [] => (skipped, [])
  | segment :: rest =>
    if skipped + segment.byte_size ≤ offset then
      seekLoop (skipped + segment.byte_size) offset rest
    else
      (skipped, segment :: rest)

/-- Embeds `struct SeekReader` (src/main.rs): the intra-segment offset and the
remaining segments of the iterator. -/
structure SeekReader where
  offset : Nat
  segments : List Segment
deriving DecidableEq

/-- Embeds `Index::seek` (src/main.rs lines 242-262). -/
def Index.seek (idx : Index) (offset : Nat) : SeekReader :=
  { offset := offset - (seekLoop 0 offset idx.segments).1
    segments := (seekLoop 0 offset idx.segments).2 }

/-- Outcome of a `SeekReader::read` call: a normal return (count, buffer and
the reader's final state), a Rust panic, or fuel exhaustion - the loop of
`SeekReader::read` does not terminate on all inputs, so it is embedded with
explicit fuel and `outOfFuel` witnesses divergence. -/
inductive ReadResult where
  | ok (nread : Nat) (buf : List Nat) (reader : SeekReader)
  | panicked
  | outOfFuel
deriving DecidableEq

/-- Embeds the `while let Some(segment) = self.segments.peek()` loop of
`SeekReader::read` (src/main.rs lines 274-290), with fuel. -/
def seekReadLoop : Nat → SeekReader → Nat → List Nat → ReadResult
  | 0, _, _, _ => .outOfFuel
  | fuel + 1, reader, nread, buf =>
    match reader.segments with
    | [] => .ok nread buf reader
    | segment :: rest =>
      if nread = buf.length then
        .ok nread buf reader
      else if segment.byte_size ≤ reader.offset then
        seekReadLoop fuel ⟨reader.offset - segment.byte_size, rest⟩ nread buf
      else
        match segment.read reader.offset (buf.drop nread) with
        | none => .panicked
        | some (segment_read, subbuf) =>
          seekReadLoop fuel ⟨reader.offset + segment_read, segment :: rest⟩
            (nread + segment_read) (buf.take nread ++ subbuf)

/-- Embeds `SeekReader::read` (src/main.rs lines 271-293). -/
def SeekReader.read (reader : SeekReader) (buf : List Nat) (fuel : Nat) : ReadResult :=
  seekReadLoop fuel reader 0 buf

/-- The bytes actually delivered by a read: the `nread`-byte filled front of
the buffer. -/
def ReadResult.bytes : ReadResult → Option (List Nat)
  | .ok nread buf _ => some (buf.take nread)
  | _ => none

/-- One `seek` + one `read` of `len` bytes starting at `offset`, into a fresh
zeroed buffer.  The fuel `2 * segments + 1` is enough for any terminating run:
each segment is visited at most twice (one producing read, one skip). -/
def readRange (idx : Index) (offset len : Nat) : ReadResult :=
  (idx.seek offset).read (List.replicate len 0) (2 * idx.segments.length + 1)

/-- Reading a range as a sequence of consecutive chunks, each with its own
`seek` + `read` call; `none` if any chunk read fails. -/
def chunkedBytes (idx : Index) : Nat → List Nat → Option (List Nat)
  | _, [] => some []
  | o, n :: rest =>
    match (readRange idx o n).bytes, chunkedBytes idx (o + n) rest with
    | some b, some bs => some (b ++ bs)
    | _, _ => none

/-- A segment is well formed when its backing file still has exactly the
recorded size - i.e. the backing filesystem has not changed since indexing. -/
def Segment.wfb : Segment → Bool
  | .file contents size => contents.length == size
  | _ => true

/-- All backing files unchanged since indexing. -/
def WF (segs : List Segment) : Prop := ∀ s ∈ segs, s.wfb = true

instance decWF (segs : List Segment) : Decidable (WF segs) :=
  inferInstanceAs (Decidable (∀ s ∈ segs, s.wfb = true))

/-- The logical bytes of one segment (for a `file` segment: the current
backing bytes - equal in length to the recorded size exactly when `wfb`). -/
def segBytes : Segment → List Nat
  | .static bytes => bytes
  | .file contents _ => contents
  | .zeroes size => List.replicate size 0

/-- The full virtual archive as one byte list. -/
def archive (segs : List Segment) : List Nat := (segs.map segBytes).flatten

/-- The sum of all segment byte sizes. -/
def sumBytes (segs : List Segment) : Nat := (segs.map Segment.byte_size).sum

/-- Modelled from the spec: `SegmentIndex.totalLength() -> u64` (spec section 6
library surface; also section 3: "the archive's total logical length equals
the sum of all segment `byteSize` values").  The given source files define no
such method - only the segment list whose byte sizes it would sum - so the
operation is taken from the spec's words. -/
def Index.totalLength (idx : Index) : Nat := sumBytes idx.segments

/-- Replace the backing-file contents of every `file` segment (a later change
of the files on disk), leaving recorded sizes untouched. -/
def Segment.withContents (f : List Nat → List Nat) : Segment → Segment
  | .file contents size => .file (f contents) size
  | s => s

/-- Follows the spec's words (section 4.1): the per-entry contribution to the
segment list - nothing if the open failed, otherwise a `Static` header
segment, a `FileContent` segment with `recordedSize = entrySize`, and, exactly
when `entrySize mod 512 ≠ 0`, a `ZeroFill` segment of `512 - entrySize mod
512` bytes.  Stated for comparison against `Index.scan`, which is embedded
from the source. -/
def entrySegmentsSpec (entry : IndexEntry) : List Segment :=
  match entry.open_result with
  | none => []
  | some contents =>
    [Segment.static entry.header_bytes, Segment.file contents entry.entry_size] ++
      (if entry.entry_size % 512 ≠ 0 then
        [Segment.zeroes (512 - entry.entry_size % 512)]
      else [])

/-! ## Basic lemmas about the building blocks -/

lemma converting_min_eq_min (a b : Nat) (hb : b ≤ USIZE_MAX) :
    converting_min a b = min a b := by
  unfold converting_min
  split
  · rfl
  · rename_i h
    omega

lemma writeRange_zero (buf data : List Nat) :
    writeRange buf 0 data = data ++ buf.drop data.length := by
  simp [writeRange]

lemma writeRange_length (buf data : List Nat) (start : Nat)
    (h : start + data.length ≤ buf.length) :
    (writeRange buf start data).length = buf.length := by
  simp [writeRange]
  omega

lemma fillRange_zero_start (buf : List Nat) (stop v : Nat) (h : stop ≤ buf.length) :
    fillRange buf 0 stop v = List.replicate stop v ++ buf.drop stop := by
  simp only [fillRange, List.take_zero, List.drop_zero, List.nil_append]
  congr 1
  rw [List.eq_replicate_iff]
  refine ⟨?_, ?_⟩
  · simp; omega
  · intro b hb
    simp only [List.mem_map] at hb
    obtain ⟨a, _, ha⟩ := hb
    exact ha.symm

lemma fillRange_stop_le_start (buf : List Nat) (start stop v : Nat) (h : stop ≤ start) :
    fillRange buf start stop v = buf.take start ++ buf.drop stop := by
  simp only [fillRange]
  rw [List.drop_eq_nil_of_le (by simp; omega)]
  simp

lemma fillRange_length (buf : List Nat) (start stop v : Nat)
    (h1 : start ≤ stop) (h2 : stop ≤ buf.length) :
    (fillRange buf start stop v).length = buf.length := by
  simp [fillRange]
  omega

/-! ## The segment read contract -/

/-- The count returned by the `Segment::File` read loop never exceeds
`min (size - offset) m`, whatever the backing file now contains. -/
lemma fileReadLoop_count (contents : List Nat) (size offset m : Nat)
    (hm : m ≤ USIZE_MAX) :
    ∀ gas nbytes buf, nbytes ≤ m → offset + nbytes ≤ size →
      (fileReadLoop contents size offset m gas nbytes buf).1 ≤ min (size - offset) m := by
  intro gas
  induction gas with
  | zero =>
    intro nbytes buf h1 h2
    dsimp only [fileReadLoop]
    omega
  | succ g ih =>
    intro nbytes buf h1 h2
    simp only [fileReadLoop]
    split
    · split
      · split
        · dsimp only
          omega
        · dsimp only
          omega
      · split
        · dsimp only
          rw [converting_min_eq_min _ _ hm]
        · rename_i hlt hn hcl
          exact ih _ _ (by omega) (by omega)
    · dsimp only
      omega

/-- When the backing file still has exactly the recorded size, the
`Segment::File` read loop fills the front of the buffer with the file bytes
from `offset` on and returns their count. -/
lemma fileReadLoop_full (c : List Nat) (offset : Nat) (b : List Nat)
    (h : offset ≤ c.length) :
    fileReadLoop c c.length offset b.length b.length 0 b =
      (min (c.length - offset) b.length,
       (c.drop offset).take (min (c.length - offset) b.length) ++
         b.drop (min (c.length - offset) b.length)) := by
  rcases hmeq : b.length with _ | M
  · dsimp only [fileReadLoop]
    simp
  · simp only [fileReadLoop]
    rw [if_pos (Nat.succ_pos M)]
    by_cases hoff : offset = c.length
    · rw [if_pos (by omega : min (M + 1 - 0) (c.length - (offset + 0)) = 0)]
      rw [if_neg (by omega : ¬ offset + 0 < c.length)]
      simp [hoff]
    · have hd : 1 ≤ c.length - offset := by omega
      set n := min (M + 1 - 0) (c.length - (offset + 0)) with hn
      have hn1 : 1 ≤ n := by omega
      rw [if_neg (by omega : ¬ n = 0)]
      rw [if_neg (by omega : ¬ c.length < offset + (0 + n))]
      have htklen : ((c.drop (offset + 0)).take n).length = n := by
        simp
        omega
      have hbuf2 : writeRange b 0 ((c.drop (offset + 0)).take n) =
          (c.drop offset).take n ++ b.drop n := by
        rw [writeRange_zero, htklen]
        simp
      rw [hbuf2]
      by_cases hmd : M + 1 ≤ c.length - offset
      · have hnm : n = M + 1 := by omega
        have hmin : min (c.length - offset) (M + 1) = M + 1 := by omega
        rcases M with _ | M2
        · dsimp only [fileReadLoop]
          rw [hmin, hnm]
        · simp only [fileReadLoop]
          rw [if_neg (by omega : ¬ 0 + n < M2 + 1 + 1)]
          rw [hmin, hnm]
          simp
      · have hnd : n = c.length - offset := by omega
        have hmin : min (c.length - offset) (M + 1) = c.length - offset := by omega
        obtain ⟨M2, rfl⟩ : ∃ M2, M = M2 + 1 := ⟨M - 1, by omega⟩
        simp only [fileReadLoop]
        rw [if_pos (by omega : 0 + n < M2 + 1 + 1)]
        rw [if_pos (by omega :
          min (M2 + 1 + 1 - (0 + n)) (c.length - (offset + (0 + n))) = 0)]
        rw [if_neg (by omega : ¬ offset + (0 + n) < c.length)]
        rw [hmin, hnd]
        simp

lemma segBytes_length (s : Segment) (h : s.wfb = true) :
    (segBytes s).length = s.byte_size := by
  cases s with
  | static bytes => rfl
  | file contents size =>
    simp only [Segment.wfb, beq_iff_eq] at h
    simpa [segBytes, Segment.byte_size] using h
  | zeroes size => simp [segBytes, Segment.byte_size]

/-- Well-formed segment read contract: at `offset ≤ byteSize`, `read` delivers
`min (byteSize - offset) (buffer length)` bytes, namely the segment's logical
bytes starting at `offset`, into the front of the buffer. -/
lemma Segment.read_wf (s : Segment) (offset : Nat) (b : List Nat)
    (hwf : s.wfb = true) (hoff : offset ≤ s.byte_size) (hb : b.length ≤ USIZE_MAX) :
    s.read offset b =
      some (min (s.byte_size - offset) b.length,
        ((segBytes s).drop offset).take (min (s.byte_size - offset) b.length) ++
          b.drop (min (s.byte_size - offset) b.length)) := by
  cases s with
  | static bytes =>
    simp only [Segment.byte_size] at hoff ⊢
    simp only [Segment.read, segBytes]
    rw [if_neg (by omega)]
    rw [writeRange_zero]
    have : ((bytes.drop offset).take (min (bytes.length - offset) b.length)).length =
        min (bytes.length - offset) b.length := by
      simp
    rw [this]
  | file contents size =>
    simp only [Segment.wfb, beq_iff_eq] at hwf
    subst hwf
    simp only [Segment.byte_size] at hoff ⊢
    simp only [Segment.read, segBytes]
    rw [fileReadLoop_full contents offset b hoff]
  | zeroes size =>
    simp only [Segment.byte_size] at hoff ⊢
    simp only [Segment.read, segBytes]
    rw [converting_min_eq_min _ _ hb]
    rw [fillRange_zero_start b (min (size - offset) b.length) 0 (by omega)]
    rw [List.drop_replicate, List.take_replicate]
    have : min (min (size - offset) b.length) (size - offset) =
        min (size - offset) b.length := by omega
    rw [this]

/-! ## Archive arithmetic -/

lemma WF_cons {s : Segment} {rest : List Segment} (h : WF (s :: rest)) :
    s.wfb = true ∧ WF rest :=
  ⟨h s (List.mem_cons_self s rest), fun t ht => h t (List.mem_cons_of_mem s ht)⟩

lemma WF_take (segs : List Segment) (i : Nat) (h : WF segs) : WF (segs.take i) :=
  fun t ht => h t (List.mem_of_mem_take ht)

lemma WF_drop (segs : List Segment) (i : Nat) (h : WF segs) : WF (segs.drop i) :=
  fun t ht => h t (List.mem_of_mem_drop ht)

lemma sumBytes_cons (s : Segment) (rest : List Segment) :
    sumBytes (s :: rest) = s.byte_size + sumBytes rest := by
  simp [sumBytes]

lemma sumBytes_append (l1 l2 : List Segment) :
    sumBytes (l1 ++ l2) = sumBytes l1 + sumBytes l2 := by
  simp [sumBytes]

lemma archive_cons (s : Segment) (rest : List Segment) :
    archive (s :: rest) = segBytes s ++ archive rest := by
  simp [archive]

lemma archive_append (l1 l2 : List Segment) :
    archive (l1 ++ l2) = archive l1 ++ archive l2 := by
  simp [archive]

lemma archive_length (segs : List Segment) (h : WF segs) :
    (archive segs).length = sumBytes segs := by
  induction segs with
  | nil => rfl
  | cons s rest ih =>
    obtain ⟨h1, h2⟩ := WF_cons h
    rw [archive_cons, sumBytes_cons, List.length_append, segBytes_length s h1, ih h2]

/-! ## The seek loop -/

/-- Characterization of the `Index::seek` skip loop: starting from `skipped ≤
offset` it stops at the first position `i` whose segment would make the
cumulative end exceed `offset`, having accumulated exactly the byte sizes of
the skipped initial segments. -/
lemma seekLoop_spec (segs : List Segment) :
    ∀ skipped offset, skipped ≤ offset →
      ∃ i, i ≤ segs.length ∧
        seekLoop skipped offset segs = (skipped + sumBytes (segs.take i), segs.drop i) ∧
        skipped + sumBytes (segs.take i) ≤ offset ∧
        ∀ h : i < segs.length,
          offset < skipped + sumBytes (segs.take i) + (segs.get ⟨i, h⟩).byte_size := by
  induction segs with
  | nil =>
    intro skipped offset hso
    refine ⟨0, by simp, ?_, by simpa [sumBytes], ?_⟩
    · simp [seekLoop, sumBytes]
    · intro h
      exact absurd h (by simp)
  | cons s rest ih =>
    intro skipped offset hso
    by_cases hcase : skipped + s.byte_size ≤ offset
    · obtain ⟨i, hi, heq, hle, hnext⟩ := ih (skipped + s.byte_size) offset hcase
      refine ⟨i + 1, by simpa using hi, ?_, ?_, ?_⟩
      · simp only [seekLoop]
        rw [if_pos hcase, heq, List.take_succ_cons, sumBytes_cons]
        refine Prod.ext ?_ rfl
        simp
        omega
      · rw [List.take_succ_cons, sumBytes_cons]
        omega
      · intro h
        rw [List.take_succ_cons, sumBytes_cons]
        have := hnext (by simpa using h)
        simpa [Nat.add_assoc] using this
    · refine ⟨0, by simp, ?_, by simpa [sumBytes] using hso, ?_⟩
      · simp only [seekLoop]
        rw [if_neg hcase]
        simp [sumBytes]
      · intro h
        simp only [List.take_zero, List.get_cons_zero, sumBytes]
        simp
        omega

/-! ## The read loop on a well-formed index -/

/-- Main characterization of the `SeekReader::read` loop over well-formed
segments (all backing files unchanged since indexing): with enough fuel it
returns `nread` plus `min (space left) (bytes left from offset)`, having
written exactly the archive bytes starting at `offset` into the buffer after
position `nread`. -/
lemma seekReadLoop_wf :
    ∀ (segs : List Segment) (fuel offset nread : Nat) (buf : List Nat),
      WF segs → 2 * segs.length + 1 ≤ fuel → nread ≤ buf.length →
      buf.length ≤ USIZE_MAX →
      ∃ reader,
        seekReadLoop fuel ⟨offset, segs⟩ nread buf =
          .ok (nread + min (buf.length - nread) (sumBytes segs - offset))
            (buf.take nread ++
              ((archive segs).drop offset).take
                (min (buf.length - nread) (sumBytes segs - offset)) ++
              buf.drop (nread + min (buf.length - nread) (sumBytes segs - offset)))
            reader := by
  intro segs
  induction segs with
  | nil =>
    intro fuel offset nread buf hwf hfuel hnb hub
    obtain ⟨f, rfl⟩ : ∃ f, fuel = f + 1 := ⟨fuel - 1, by omega⟩
    refine ⟨⟨offset, []⟩, ?_⟩
    simp [seekReadLoop, sumBytes, archive]
  | cons seg rest ih =>
    intro fuel offset nread buf hwf hfuel hnb hub
    obtain ⟨h1, h2⟩ := WF_cons hwf
    obtain ⟨f, rfl⟩ : ∃ f, fuel = f + 1 := ⟨fuel - 1, by omega⟩
    by_cases hfull : nread = buf.length
    · refine ⟨⟨offset, seg :: rest⟩, ?_⟩
      simp only [seekReadLoop]
      rw [if_pos hfull]
      subst hfull
      simp
    · by_cases hskip : seg.byte_size ≤ offset
      · -- skip this segment
        obtain ⟨r, hr⟩ :=
          ih f (offset - seg.byte_size) nread buf h2 (by simp at hfuel ⊢; omega) hnb hub
        refine ⟨r, ?_⟩
        simp only [seekReadLoop]
        rw [if_neg hfull, if_pos hskip, hr]
        have harch : (archive (seg :: rest)).drop offset =
            (archive rest).drop (offset - seg.byte_size) := by
          rw [archive_cons, List.drop_append_eq_append_drop,
            List.drop_eq_nil_of_le (by rw [segBytes_length seg h1]; exact hskip),
            segBytes_length seg h1]
          simp
        have hsum : sumBytes rest - (offset - seg.byte_size) =
            sumBytes (seg :: rest) - offset := by
          rw [sumBytes_cons]
          omega
        rw [harch, hsum]
      · -- read from this segment
        have hlen : (buf.drop nread).length = buf.length - nread := by simp
        have hread := Segment.read_wf seg offset (buf.drop nread) h1 (by omega)
          (by rw [hlen]; omega)
        rw [hlen] at hread
        set m2 := buf.length - nread with hm2
        set k := min (seg.byte_size - offset) m2 with hk
        have hA : (((segBytes seg).drop offset).take k).length = k := by
          simp [segBytes_length seg h1]
          omega
        have hB : (buf.drop nread).drop k = buf.drop (nread + k) := by
          rw [List.drop_drop]
        rw [hB] at hread
        have harch0 : (archive (seg :: rest)).drop offset =
            (segBytes seg).drop offset ++ archive rest := by
          rw [archive_cons, List.drop_append_eq_append_drop,
            Nat.sub_eq_zero_of_le (by rw [segBytes_length seg h1]; omega)]
          simp
        by_cases hfit : m2 ≤ seg.byte_size - offset
        · -- the buffer fills inside this segment
          have hkm : k = m2 := by omega
          obtain ⟨f1, rfl⟩ : ∃ f1, f = f1 + 1 := ⟨f - 1, by simp at hfuel; omega⟩
          refine ⟨⟨offset + k, seg :: rest⟩, ?_⟩
          simp only [seekReadLoop]
          rw [if_neg hfull, if_neg hskip, hread]
          simp only [seekReadLoop]
          have hbig : (buf.take nread ++
              (((segBytes seg).drop offset).take k ++ buf.drop (nread + k))).length =
              buf.length := by
            simp [hA]
            omega
          rw [if_pos (by rw [hbig]; omega : nread + k =
            (buf.take nread ++
              (((segBytes seg).drop offset).take k ++ buf.drop (nread + k))).length)]
          have hn : min m2 (sumBytes (seg :: rest) - offset) = m2 := by
            rw [sumBytes_cons]
            omega
          rw [hn]
          have hmid : ((archive (seg :: rest)).drop offset).take m2 =
              ((segBytes seg).drop offset).take k := by
            rw [harch0, List.take_append_eq_append_take]
            have hz : m2 - ((segBytes seg).drop offset).length = 0 := by
              simp [segBytes_length seg h1]
              omega
            rw [hz, List.take_zero, List.append_nil, hkm]
          rw [hmid, hkm]
          simp [List.append_assoc]
        · -- this segment is exhausted first; move to the rest
          have hkd : k = seg.byte_size - offset := by omega
          obtain ⟨f1, rfl⟩ : ∃ f1, f = f1 + 1 := ⟨f - 1, by simp at hfuel; omega⟩
          have hfuel1 : 2 * rest.length + 1 ≤ f1 := by simp at hfuel; omega
          have hbiglen : (buf.take nread ++
              (((segBytes seg).drop offset).take k ++ buf.drop (nread + k))).length =
              buf.length := by
            simp [hA]
            omega
          obtain ⟨r, hr⟩ := ih f1 0 (nread + k)
            (buf.take nread ++ (((segBytes seg).drop offset).take k ++ buf.drop (nread + k)))
            h2 hfuel1 (by rw [hbiglen]; omega) (by rw [hbiglen]; exact hub)
          refine ⟨r, ?_⟩
          simp only [seekReadLoop]
          rw [if_neg hfull, if_neg hskip, hread]
          simp only [seekReadLoop]
          rw [if_neg (by rw [hbiglen]; omega), if_pos (by omega : seg.byte_size ≤ offset + k)]
          have hoffz : offset + k - seg.byte_size = 0 := by omega
          rw [hoffz, hr, hbiglen]
          -- both sides are now `.ok` applications; equate counts and buffers
          have hA0 : ((segBytes seg).drop offset).length = k := by
            simp [segBytes_length seg h1]
            omega
          have hA0full : ((segBytes seg).drop offset).take k = (segBytes seg).drop offset :=
            List.take_of_length_le (by rw [hA0])
          set S := sumBytes rest with hS
          set n2 := min (buf.length - (nread + k)) (S - 0) with hn2
          set n := min m2 (sumBytes (seg :: rest) - offset) with hn
          have hsum : sumBytes (seg :: rest) = seg.byte_size + S := sumBytes_cons seg rest
          have hkn : k ≤ n := by rw [hn, hsum]; omega
          have hnn : nread + k + n2 = nread + n := by rw [hn2, hn, hsum]; omega
          have hC : ((buf.take nread ++
              (((segBytes seg).drop offset).take k ++ buf.drop (nread + k)))).take (nread + k) =
              buf.take nread ++ ((segBytes seg).drop offset).take k := by
            rw [← List.append_assoc]
            refine List.take_left' ?_
            simp [hA]
            omega
          have hD : ((buf.take nread ++
              (((segBytes seg).drop offset).take k ++ buf.drop (nread + k)))).drop
                (nread + k + n2) = buf.drop (nread + n) := by
            rw [← List.append_assoc, List.drop_append_eq_append_drop]
            have hlen12 : (buf.take nread ++ ((segBytes seg).drop offset).take k).length =
                nread + k := by
              simp [hA]
              omega
            rw [List.drop_eq_nil_of_le (by rw [hlen12]; omega), hlen12, List.nil_append,
              List.drop_drop]
            congr 1
            omega
          have hmid : ((archive (seg :: rest)).drop offset).take n =
              (segBytes seg).drop offset ++ (archive rest).take n2 := by
            rw [harch0, List.take_append_eq_append_take, hA0,
              List.take_of_length_le (by rw [hA0]; exact hkn)]
            have hidx : n - k = n2 := by
              rw [hn2, hn, hsum]
              omega
            rw [hidx]
          rw [hC, hD, hmid, hnn, hA0full]
          simp [List.append_assoc]


/-- One `seek` + one `read` over a well-formed index delivers exactly the
archive bytes `[offset, offset + len)`. -/
lemma readRange_wf (idx : Index) (offset len : Nat)
    (hwf : WF idx.segments) (hbound : offset + len ≤ sumBytes idx.segments)
    (hlen : len ≤ USIZE_MAX) :
    ∃ reader, readRange idx offset len =
      .ok len (((archive idx.segments).drop offset).take len) reader := by
  obtain ⟨i, hi, heq, hle, _⟩ := seekLoop_spec idx.segments 0 offset (Nat.zero_le _)
  simp only [Nat.zero_add] at heq hle
  have hseek : idx.seek offset =
      ⟨offset - sumBytes (idx.segments.take i), idx.segments.drop i⟩ := by
    simp [Index.seek, heq]
  set cum := sumBytes (idx.segments.take i) with hcum
  have hsplit : sumBytes idx.segments = cum + sumBytes (idx.segments.drop i) := by
    conv_lhs => rw [← List.take_append_drop i idx.segments]
    rw [sumBytes_append]
  have harchsplit : (archive idx.segments).drop offset =
      (archive (idx.segments.drop i)).drop (offset - cum) := by
    conv_lhs => rw [← List.take_append_drop i idx.segments]
    rw [archive_append, List.drop_append_eq_append_drop,
      List.drop_eq_nil_of_le (by rw [archive_length _ (WF_take _ _ hwf)]; omega),
      archive_length _ (WF_take _ _ hwf)]
    simp
  obtain ⟨r, hr⟩ := seekReadLoop_wf (idx.segments.drop i)
    (2 * idx.segments.length + 1) (offset - cum) 0 (List.replicate len 0)
    (WF_drop _ _ hwf) (by simp) (by simp) (by simpa using hlen)
  have hmin : min ((List.replicate len (0 : Nat)).length - 0)
      (sumBytes (idx.segments.drop i) - (offset - cum)) = len := by
    simp
    omega
  rw [hmin] at hr
  refine ⟨r, ?_⟩
  simp only [readRange, SeekReader.read, hseek]
  rw [hr, harchsplit]
  simp

/-! ## Scan layout -/

lemma scanStep_eq (segments : List Segment) (entry : IndexEntry) :
    scanStep segments entry = segments ++ entrySegmentsSpec entry := by
  obtain ⟨hb, es, op⟩ := entry
  cases op with
  | none => simp [scanStep, entrySegmentsSpec]
  | some contents =>
    simp only [scanStep, entrySegmentsSpec, TAR_BLOCK_SIZE]
    by_cases hmod : es % 512 = 0
    · rw [if_neg (by omega : ¬ 0 < es % 512), if_neg (by simp [hmod])]
      simp
    · rw [if_pos (by omega : 0 < es % 512), if_pos hmod]
      simp

lemma foldl_scanStep (entries : List IndexEntry) :
    ∀ acc : List Segment,
      entries.foldl scanStep acc = acc ++ (entries.map entrySegmentsSpec).flatten := by
  induction entries with
  | nil =>
    intro acc
    simp
  | cons e es ih =>
    intro acc
    simp only [List.foldl_cons, List.map_cons, List.flatten_cons]
    rw [ih, scanStep_eq, List.append_assoc]

lemma scan_segments (root : String) (entries : List IndexEntry) :
    (Index.scan root entries).segments =
      (entries.map entrySegmentsSpec).flatten ++ [Segment.zeroes 1024] := by
  simp only [Index.scan]
  rw [foldl_scanStep]
  norm_num [TAR_BLOCK_SIZE]

/-! ## The claims -/

/-- C1: the claim fails on the code.  For a `FileContent` segment with
`recordedSize` 10 whose backing file shrank to the 3 bytes `[1, 2, 3]`,
`Segment::read(0, buf)` with a 10-byte buffer does zero-fill `buf[3..10]`,
but returns `Ok(3)` - the count of bytes actually read from the file - and
not `Ok(min (10 - 0) 10) = Ok(10)` as the claim (and the function's own doc
comment, which says a short return means the end of the segment) requires:
`nbytes` is never advanced past the zero-filled range. -/
theorem C1_shrunk_file_read_returns_short_count :
    Segment.read (Segment.file [1, 2, 3] 10) 0 (List.replicate 10 7) =
      some (3, [1, 2, 3, 0, 0, 0, 0, 0, 0, 0]) ∧
    3 < min (10 - 0) (List.replicate 10 7).length :=
  ⟨by decide, by decide⟩

lemma seekReadLoop_shrunk_stuck : ∀ fuel,
    seekReadLoop fuel ⟨3, [Segment.file [1, 2, 3] 10]⟩ 3
      [1, 2, 3, 0, 0, 0, 0, 0, 0, 0] = .outOfFuel := by
  intro fuel
  induction fuel with
  | zero => rfl
  | succ g ih => exact ih

/-- C2: the claim fails on the code.  On an index whose only segment is a
`FileContent` segment of `recordedSize` 10 over a backing file shrunk to 3
bytes, `SeekReader::read` with a 10-byte buffer never terminates: the
segment's `read` keeps answering a count that never advances the cursor past
the missing tail, so the loop re-reads the same position forever - for every
fuel bound the embedded loop is still running.  The source's own comment
("must ... not crash or fall into an infinite loop") and the spec both
require termination with a short count. -/
theorem C2_read_diverges_on_shrunk_file :
    ∀ fuel, SeekReader.read ⟨0, [Segment.file [1, 2, 3] 10]⟩
      (List.replicate 10 7) fuel = .outOfFuel := by
  intro fuel
  match fuel with
  | 0 => rfl
  | 1 => rfl
  | g + 2 => exact seekReadLoop_shrunk_stuck g

/-- C3: CONFIRMED.  A `FileContent` read at `offset ≤ recordedSize` returns at
most `min (recordedSize - offset) buf.len()` bytes, however large the backing
file has grown: the count is clamped by the `offset + nbytes > size` branch
before returning. -/
theorem C3_grown_file_read_count_clamped (contents : List Nat) (size offset : Nat)
    (buf : List Nat) (hoff : offset ≤ size) (hbuf : buf.length ≤ USIZE_MAX) :
    ∃ n buf2, Segment.read (Segment.file contents size) offset buf = some (n, buf2) ∧
      n ≤ min (size - offset) buf.length := by
  refine ⟨(fileReadLoop contents size offset buf.length buf.length 0 buf).1,
    (fileReadLoop contents size offset buf.length buf.length 0 buf).2, by simp [Segment.read], ?_⟩
  exact fileReadLoop_count contents size offset buf.length hbuf buf.length 0 buf
    (Nat.zero_le _) (by omega)

theorem C3_witness : ∃ n buf2,
    Segment.read (Segment.file [1, 2, 3, 4, 5] 3) 1 [7, 7, 7, 7] = some (n, buf2) ∧
      n ≤ min (3 - 1) ([7, 7, 7, 7] : List Nat).length :=
  C3_grown_file_read_count_clamped [1, 2, 3, 4, 5] 3 1 [7, 7, 7, 7]
    (by decide) (by decide)

/-- C4: CONFIRMED against a spec-modelled `totalLength` (the source files
expose no such method).  Its value is the sum of all segment byte sizes, and
it is untouched by any later change of the backing files' contents: a `file`
segment's byte size is the recorded size, never the current file length.
Reads cannot change it either - nothing in `Segment::read` or
`SeekReader::read` writes to the index. -/
theorem C4_totalLength_is_size_sum_and_stable (idx : Index) (f : List Nat → List Nat) :
    Index.totalLength idx = (idx.segments.map Segment.byte_size).sum ∧
    Index.totalLength ⟨idx.root, idx.segments.map (Segment.withContents f)⟩ =
      Index.totalLength idx := by
  refine ⟨rfl, ?_⟩
  simp only [Index.totalLength, sumBytes]
  rw [List.map_map]
  have hcomp : Segment.byte_size ∘ Segment.withContents f = Segment.byte_size := by
    funext s
    cases s <;> rfl
  rw [hcomp]

/-- C5: CONFIRMED.  `seek(offset)` stops at position `i`, the first segment
whose cumulative end exceeds `offset` (the preceding byte sizes sum to at
most `offset`, and segment `i` - when it exists - ends past `offset`), with
intra-segment offset `offset - (sum of preceding byte sizes)`; and when
`offset` is at or beyond the total length the cursor is past the last
segment and every subsequent read returns 0 bytes, leaving the cursor
unchanged. -/
theorem C5_seek_positions_cursor (idx : Index) (offset : Nat) :
    ∃ i, i ≤ idx.segments.length ∧
      (idx.seek offset).segments = idx.segments.drop i ∧
      (idx.seek offset).offset = offset - sumBytes (idx.segments.take i) ∧
      sumBytes (idx.segments.take i) ≤ offset ∧
      (∀ h : i < idx.segments.length,
        offset < sumBytes (idx.segments.take i) +
          (idx.segments.get ⟨i, h⟩).byte_size) ∧
      (sumBytes idx.segments ≤ offset →
        (idx.seek offset).segments = [] ∧
        ∀ buf fuel, (idx.seek offset).read buf (fuel + 1) =
          .ok 0 buf (idx.seek offset)) := by
  obtain ⟨i, hi, heq, hle, hnext⟩ := seekLoop_spec idx.segments 0 offset (Nat.zero_le _)
  simp only [Nat.zero_add] at heq hle hnext
  have hsegs : (idx.seek offset).segments = idx.segments.drop i := by
    simp [Index.seek, heq]
  have hoff : (idx.seek offset).offset = offset - sumBytes (idx.segments.take i) := by
    simp [Index.seek, heq]
  refine ⟨i, hi, hsegs, hoff, hle, hnext, ?_⟩
  intro htot
  have hilen : i = idx.segments.length := by
    by_contra hne
    have hlt : i < idx.segments.length := by omega
    have h2 := hnext hlt
    have h3 : sumBytes (idx.segments.take (i + 1)) ≤ sumBytes idx.segments := by
      conv_rhs => rw [← List.take_append_drop (i + 1) idx.segments]
      rw [sumBytes_append]
      omega
    have h4 : sumBytes (idx.segments.take (i + 1)) =
        sumBytes (idx.segments.take i) + (idx.segments.get ⟨i, hlt⟩).byte_size := by
      rw [List.take_succ, sumBytes_append]
      congr 1
      simp [List.getElem?_eq_getElem hlt, sumBytes, List.get_eq_getElem]
    omega
  have hreader : idx.seek offset = ⟨offset - sumBytes (idx.segments.take i), []⟩ := by
    simp [Index.seek, heq, hilen]
  refine ⟨by rw [hreader], ?_⟩
  intro buf fuel
  rw [hreader]
  simp [SeekReader.read, seekReadLoop]

theorem C5_witness : ∃ i,
    i ≤ (Index.mk "" [Segment.static [9, 9], Segment.zeroes 3]).segments.length ∧
    ((Index.mk "" [Segment.static [9, 9], Segment.zeroes 3]).seek 4).segments =
      (Index.mk "" [Segment.static [9, 9], Segment.zeroes 3]).segments.drop i ∧
    ((Index.mk "" [Segment.static [9, 9], Segment.zeroes 3]).seek 4).offset =
      4 - sumBytes ((Index.mk "" [Segment.static [9, 9], Segment.zeroes 3]).segments.take i) ∧
    sumBytes ((Index.mk "" [Segment.static [9, 9], Segment.zeroes 3]).segments.take i) ≤ 4 ∧
    (∀ h : i < (Index.mk "" [Segment.static [9, 9], Segment.zeroes 3]).segments.length,
      4 < sumBytes ((Index.mk "" [Segment.static [9, 9], Segment.zeroes 3]).segments.take i) +
        ((Index.mk "" [Segment.static [9, 9], Segment.zeroes 3]).segments.get ⟨i, h⟩).byte_size) ∧
    (sumBytes (Index.mk "" [Segment.static [9, 9], Segment.zeroes 3]).segments ≤ 4 →
      ((Index.mk "" [Segment.static [9, 9], Segment.zeroes 3]).seek 4).segments = [] ∧
      ∀ buf fuel,
        ((Index.mk "" [Segment.static [9, 9], Segment.zeroes 3]).seek 4).read buf (fuel + 1) =
          .ok 0 buf ((Index.mk "" [Segment.static [9, 9], Segment.zeroes 3]).seek 4)) :=
  C5_seek_positions_cursor (Index.mk "" [Segment.static [9, 9], Segment.zeroes 3]) 4

lemma chunkedBytes_wf (idx : Index) (hwf : WF idx.segments) :
    ∀ (ls : List Nat) (o1 : Nat), o1 + ls.sum ≤ sumBytes idx.segments →
      ls.sum ≤ USIZE_MAX →
      chunkedBytes idx o1 ls = some (((archive idx.segments).drop o1).take ls.sum) := by
  intro ls
  induction ls with
  | nil =>
    intro o1 hbound hsz
    simp [chunkedBytes]
  | cons n rest ih =>
    intro o1 hbound hsz
    simp only [List.sum_cons] at hbound hsz
    obtain ⟨r1, hr1⟩ := readRange_wf idx o1 n hwf (by omega) (by omega)
    simp only [chunkedBytes, hr1, ReadResult.bytes]
    rw [List.take_of_length_le (by simp), ih (o1 + n) (by omega) (by omega)]
    simp only [List.sum_cons]
    rw [List.take_add, ← List.drop_drop]

/-- C6: CONFIRMED.  Over a well-formed index (backing files unchanged since
indexing), reading `[o1, o1 + sum of chunk lengths)` with one `seek` + `read`
yields exactly the same bytes as reading it via any decomposition into
consecutive chunks, each with its own `seek` + `read` call: both equal the
archive bytes of that range. -/
theorem C6_chunked_reads_compose (idx : Index) (o1 : Nat) (ls : List Nat)
    (hwf : WF idx.segments) (hbound : o1 + ls.sum ≤ sumBytes idx.segments)
    (hsz : ls.sum ≤ USIZE_MAX) :
    chunkedBytes idx o1 ls = (readRange idx o1 ls.sum).bytes := by
  obtain ⟨r, hr⟩ := readRange_wf idx o1 ls.sum hwf hbound hsz
  rw [hr]
  simp only [ReadResult.bytes]
  rw [List.take_of_length_le (by simp)]
  exact chunkedBytes_wf idx hwf ls o1 hbound hsz

theorem C6_witness :
    chunkedBytes ⟨"", [Segment.static [1, 2], Segment.file [3, 4, 5] 3,
      Segment.zeroes 2]⟩ 1 [2, 3] =
    (readRange ⟨"", [Segment.static [1, 2], Segment.file [3, 4, 5] 3,
      Segment.zeroes 2]⟩ 1 ([2, 3] : List Nat).sum).bytes :=
  C6_chunked_reads_compose
    ⟨"", [Segment.static [1, 2], Segment.file [3, 4, 5] 3, Segment.zeroes 2]⟩
    1 [2, 3] (by decide) (by decide) (by decide)

/-- C7: CONFIRMED.  A successful scan lays out, for each successfully opened
entry and in entry order, exactly the segments of `entrySegmentsSpec`: a
`Static` header segment, a `FileContent` segment with `recordedSize =
entrySize`, and - exactly when `entrySize mod 512 ≠ 0` - a `ZeroFill` segment
of `512 - entrySize mod 512` bytes; and the built index always ends with a
single `ZeroFill` segment of exactly 1024 bytes. -/
theorem C7_scan_layout (root : String) (entries : List IndexEntry) :
    (Index.scan root entries).segments =
      (entries.map entrySegmentsSpec).flatten ++ [Segment.zeroes 1024] ∧
    (Index.scan root entries).segments.getLast? = some (Segment.zeroes 1024) := by
  refine ⟨scan_segments root entries, ?_⟩
  rw [scan_segments root entries]
  exact List.getLast?_concat _

/-- C8: CONFIRMED.  An entry whose backing file fails to open contributes no
segment at all - removing it from the entry list leaves the scan result (the
whole index, other entries' segments included) unchanged. -/
theorem C8_unopenable_entry_fully_skipped (root : String) (pre post : List IndexEntry)
    (hb : List Nat) (es : Nat) :
    Index.scan root (pre ++ ⟨hb, es, none⟩ :: post) = Index.scan root (pre ++ post) := by
  simp only [Index.scan, Index.mk.injEq, true_and]
  rw [foldl_scanStep, foldl_scanStep]
  simp [entrySegmentsSpec]

/-- C9: CONFIRMED.  Scanning an empty directory tree yields an index whose
only segment is the 1024-byte `ZeroFill` terminator; reading the whole
archive from offset 0 delivers exactly 1024 zero bytes, and any read at or
past offset 1024 returns 0 bytes (end-of-stream), leaving the cursor
unchanged. -/
theorem C9_empty_tree_archive :
    (Index.scan "" []).segments = [Segment.zeroes 1024] ∧
    (readRange (Index.scan "" []) 0 1024).bytes = some (List.replicate 1024 0) ∧
    ∀ extra buf fuel, ((Index.scan "" []).seek (1024 + extra)).read buf (fuel + 1) =
      .ok 0 buf ((Index.scan "" []).seek (1024 + extra)) := by
  have hsegs : (Index.scan "" []).segments = [Segment.zeroes 1024] := by
    rw [scan_segments]
    simp
  refine ⟨hsegs, ?_, ?_⟩
  · obtain ⟨r, hr⟩ := readRange_wf (Index.scan "" []) 0 1024
      (by rw [hsegs]; decide) (by rw [hsegs]; decide) (by decide)
    rw [hr]
    simp only [ReadResult.bytes]
    rw [hsegs]
    have harch : archive [Segment.zeroes 1024] = List.replicate 1024 0 := by
      unfold archive
      rw [List.map_cons, List.map_nil, List.flatten_cons, List.flatten_nil,
        List.append_nil]
      rfl
    rw [harch, List.drop_zero, List.take_replicate, List.take_replicate,
      Nat.min_self, Nat.min_self]
  · intro extra buf fuel
    have hseek : (Index.scan "" []).seek (1024 + extra) = ⟨extra, []⟩ := by
      simp only [Index.seek]
      rw [hsegs]
      simp only [seekLoop, Segment.byte_size]
      rw [if_pos (by omega : (0 : Nat) + 1024 ≤ 1024 + extra)]
      have hsub : (1024 : Nat) + extra - (0 + 1024) = extra := by omega
      simp [hsub]
    rw [hseek]
    simp [SeekReader.read, seekReadLoop]

/-- C10 counterexample: the claim fails on the code for `Static` segments.
At `offset = 2`, one past `byteSize = 1`, `Segment::read` panics on the
out-of-range slice `&bytes[2..2]` instead of returning `Ok(0)`. -/
theorem C10_counterexample_static_past_end_panics :
    Segment.read (Segment.static [5]) 2 [7, 7] = none := by decide

lemma fileReadLoop_past_end (contents : List Nat) (size offset : Nat) (b : List Nat)
    (hs : size ≤ offset) :
    (fileReadLoop contents size offset b.length b.length 0 b).1 = 0 ∧
    (fileReadLoop contents size offset b.length b.length 0 b).2.length = b.length := by
  have hcv : converting_min (size - offset) b.length = 0 := by
    unfold converting_min
    rw [if_pos (by unfold USIZE_MAX; omega)]
    omega
  rcases hmeq : b.length with _ | M
  · dsimp only [fileReadLoop]
    simp [hmeq]
  · simp only [fileReadLoop]
    rw [if_pos (Nat.succ_pos M)]
    by_cases hn : min (M + 1 - 0) (contents.length - (offset + 0)) = 0
    · rw [if_pos hn, if_neg (by omega : ¬ offset + 0 < size)]
      simp [hmeq]
    · rw [if_neg hn,
        if_pos (by omega : size < offset + (0 + min (M + 1 - 0) (contents.length - (offset + 0))))]
      rw [hmeq] at hcv
      rw [hcv]
      refine ⟨rfl, ?_⟩
      rw [writeRange_length]
      · exact hmeq
      · simp
        omega

/-- C10 amended: for `ZeroFill` and `FileContent` segments, every offset at
or beyond `byteSize` yields `Ok(0)` without panicking - though a
`FileContent` segment whose backing file grew past `offset` may copy file
bytes into the buffer before returning 0; a `Static` segment yields `Ok(0)`
with the buffer untouched at `offset = byteSize` exactly, and panics at every
offset strictly beyond it. -/
theorem C10_amended_reads_at_or_past_segment_end (offset : Nat) (buf : List Nat) :
    (∀ size, size ≤ offset →
      Segment.read (Segment.zeroes size) offset buf = some (0, buf)) ∧
    (∀ bytes : List Nat,
      Segment.read (Segment.static bytes) bytes.length buf = some (0, buf)) ∧
    (∀ bytes : List Nat, bytes.length < offset →
      Segment.read (Segment.static bytes) offset buf = none) ∧
    (∀ (contents : List Nat) (size : Nat), size ≤ offset →
      ∃ buf2, Segment.read (Segment.file contents size) offset buf = some (0, buf2) ∧
        buf2.length = buf.length) := by
  refine ⟨?_, ?_, ?_, ?_⟩
  · intro size hs
    simp only [Segment.read]
    have h0 : size - offset = 0 := by omega
    rw [h0]
    have hcv : converting_min 0 buf.length = 0 := by
      unfold converting_min
      rw [if_pos (Nat.zero_le _)]
      omega
    rw [hcv, fillRange_stop_le_start buf 0 0 0 (Nat.le_refl 0)]
    simp
  · intro bytes
    simp only [Segment.read]
    rw [if_neg (by omega)]
    simp [writeRange]
  · intro bytes hlt
    simp only [Segment.read]
    rw [if_pos hlt]
  · intro contents size hs
    obtain ⟨h1, h2⟩ := fileReadLoop_past_end contents size offset buf hs
    refine ⟨(fileReadLoop contents size offset buf.length buf.length 0 buf).2, ?_, h2⟩
    simp only [Segment.read]
    exact congrArg some (Prod.ext h1 rfl)

theorem C10_witness :
    Segment.read (Segment.zeroes 5) 7 [9, 9] = some (0, [9, 9]) ∧
    Segment.read (Segment.static [4, 4]) ([4, 4] : List Nat).length [9, 9] =
      some (0, [9, 9]) ∧
    Segment.read (Segment.static [4, 4]) 3 [9, 9] = none ∧
    ∃ buf2, Segment.read (Segment.file [1, 2, 3, 4] 2) 2 [9, 9] = some (0, buf2) ∧
      buf2.length = ([9, 9] : List Nat).length :=
  ⟨(C10_amended_reads_at_or_past_segment_end 7 [9, 9]).1 5 (by decide),
   (C10_amended_reads_at_or_past_segment_end 7 [9, 9]).2.1 [4, 4],
   (C10_amended_reads_at_or_past_segment_end 3 [9, 9]).2.2.1 [4, 4] (by decide),
   (C10_amended_reads_at_or_past_segment_end 2 [9, 9]).2.2.2 [1, 2, 3, 4] 2 (by decide)⟩
